import Mathlib

set_option maxRecDepth 10000

/-!
Verification development for the qnap-vm remote VM orchestration layer.

The Go sources are shallowly embedded: Go strings are modeled as Lean
String or List Char, Go int64 as Int (with explicit two-complement
wrapping where overflow is reachable), fallible operations as Except,
and the remote executor as an explicit oracle function.  Floating point
arithmetic in parseSize is modeled by exact rational value semantics,
which coincides with float64 behavior on the integer inputs covered by
the theorems (division and multiplication by powers of two are exact in
binary floating point for mantissas below 2 to the 53).
-/

namespace QnapVM

/-! ## Storage pool model (storage package) -/

/-- Pool mirrors the Pool struct of the storage package: name, filesystem
path, type tag, capacity figures in whole GB, availability flag and a
human description. -/
structure Pool where
  name : String
  path : String
  ptype : String
  totalSpace : Int
  usedSpace : Int
  freeSpace : Int
  available : Bool
  description : String
deriving DecidableEq

/-- CreateVMDiskPath from the storage package: the disk path is the pool
path, the fixed subdirectory for VM disks, and the VM name with the
qcow2 extension.  The remote mkdir issued by the Go code is best effort
and does not influence the returned string, so the embedding is pure. -/
def CreateVMDiskPath (pool : Pool) (vmName : String) : String :=
  let vmDir := pool.path ++ "/.qnap-vm/disks"
  vmDir ++ "/" ++ vmName ++ ".qcow2"

/-- The disk path template as worded by the specification invariant
(pool path, then a .vm-disks subdirectory, then the VM name with the
qcow2 extension).  Stated only to compare against CreateVMDiskPath. -/
def specVmDisksPath (pool : Pool) (vmName : String) : String :=
  pool.path ++ "/.vm-disks/" ++ vmName ++ ".qcow2"

/-- One comparison step of the GetBestPool loop: given the current best
pool and the next available pool, return the new best.  Mirrors the
three chained conditions of the Go loop body. -/
def betterPool (best p : Pool) : Pool :=
  if p.ptype = "CACHEDEV" ∧ best.ptype ≠ "CACHEDEV" then p
  else if p.ptype = "ZFS" ∧ best.ptype = "USB" then p
  else if p.ptype = best.ptype ∧ p.freeSpace > best.freeSpace then p
  else best

/-- The left-to-right reduction of the GetBestPool loop over the pool
list: unavailable pools are skipped, the first available pool seeds the
accumulator, later available pools go through betterPool. -/
def selectLoop : Option Pool → List Pool → Option Pool
  | acc, [] => acc
  | acc, p :: ps =>
    if !p.available then selectLoop acc ps
    else
      match acc with
      | none => selectLoop (some p) ps
      | some b => selectLoop (some (betterPool b p)) ps

/-- GetBestPool from the storage package, applied to an already
discovered pool list (pool discovery itself talks to the remote host and
is abstracted away; the selection logic below is the verbatim loop).
An empty list and an all-unavailable list surface the two distinct
error strings of the Go code. -/
def GetBestPool (pools : List Pool) : Except String Pool :=
  if pools.isEmpty then Except.error "no storage pools found"
  else
    match selectLoop none pools with
    | none => Except.error "no available storage pools found"
    | some b => Except.ok b

/-! ## Size string parsing (parseSize in the storage package) -/

/-- Maximal leading run of decimal digits, with the remaining suffix. -/
def takeDigits : List Char → List Char × List Char
  | [] => ([], [])
  | c :: cs =>
    if c.isDigit then (c :: (takeDigits cs).1, (takeDigits cs).2)
    else ([], c :: cs)

/-- Decimal digit run to a natural number. -/
def digitsToNat (ds : List Char) : Nat :=
  ds.foldl (fun acc c => 10 * acc + (c.toNat - 48)) 0

/-- The USB pool of the best-pool selection test: free space 100. -/
def usbPool : Pool :=
  { name := "usb-device", path := "/share/USB/SDisk", ptype := "USB",
    totalSpace := 0, usedSpace := 0, freeSpace := 100,
    available := true, description := "" }

/-- The CACHEDEV pool of the best-pool selection test: free space 50. -/
def cachePool : Pool :=
  { name := "CACHEDEV1_DATA", path := "/share/CACHEDEV1_DATA",
    ptype := "CACHEDEV", totalSpace := 0, usedSpace := 0, freeSpace := 50,
    available := true, description := "" }

/-- The ZFS pool of the best-pool selection test: free space 75. -/
def zfsPool : Pool :=
  { name := "zfs-pool", path := "/share/zfs-pool", ptype := "ZFS",
    totalSpace := 0, usedSpace := 0, freeSpace := 75,
    available := true, description := "" }

/-- An unavailable pool, for the all-unavailable failure case. -/
def unavailPool : Pool :=
  { name := "offline", path := "/share/offline", ptype := "CACHEDEV",
    totalSpace := 0, usedSpace := 0, freeSpace := 10,
    available := false, description := "" }

/-! ## Permutation enumeration helpers -/

theorem perm_two {α : Type} {l : List α} {a b : α} (h : l.Perm [a, b]) :
    l = [a, b] ∨ l = [b, a] := by
  have hlen := h.length_eq
  match l, hlen with
  | [x, y], _ =>
    have hx : x = a ∨ x = b := by
      have := h.subset (List.mem_cons_self x [y])
      simpa using this
    rcases hx with rfl | rfl
    · have : [y].Perm [b] := (List.perm_cons x).mp h
      have : y = b := by simpa using this.subset (List.mem_cons_self y [])
      subst this; exact Or.inl rfl
    · have hswap : List.Perm [a, x] [x, a] := List.Perm.swap x a []
      have : [y].Perm [a] := (List.perm_cons x).mp (h.trans hswap)
      have : y = a := by simpa using this.subset (List.mem_cons_self y [])
      subst this; exact Or.inr rfl

theorem perm_three {α : Type} {l : List α} {a b c : α} (h : l.Perm [a, b, c]) :
    l = [a, b, c] ∨ l = [a, c, b] ∨ l = [b, a, c] ∨ l = [b, c, a] ∨
      l = [c, a, b] ∨ l = [c, b, a] := by
  have hlen := h.length_eq
  match l, hlen with
  | [x, y, z], _ =>
    have hx : x = a ∨ x = b ∨ x = c := by
      have := h.subset (List.mem_cons_self x [y, z])
      simpa using this
    rcases hx with rfl | rfl | rfl
    · have htl : [y, z].Perm [b, c] := (List.perm_cons x).mp h
      rcases perm_two htl with h2 | h2 <;> rw [List.cons.injEq, List.cons.injEq] at h2 <;>
        obtain ⟨rfl, rfl, -⟩ := h2
      · exact Or.inl rfl
      · exact Or.inr (Or.inl rfl)
    · have hmid : List.Perm [a, x, c] [x, a, c] := List.Perm.swap x a [c]
      have htl : [y, z].Perm [a, c] := (List.perm_cons x).mp (h.trans hmid)
      rcases perm_two htl with h2 | h2 <;> rw [List.cons.injEq, List.cons.injEq] at h2 <;>
        obtain ⟨rfl, rfl, -⟩ := h2
      · exact Or.inr (Or.inr (Or.inl rfl))
      · exact Or.inr (Or.inr (Or.inr (Or.inl rfl)))
    · have hin : List.Perm [a, b, x] [a, x, b] := List.Perm.cons a (List.Perm.swap x b [])
      have hmid : List.Perm [a, x, b] [x, a, b] := List.Perm.swap x a [b]
      have htl : [y, z].Perm [a, b] := (List.perm_cons x).mp (h.trans (hin.trans hmid))
      rcases perm_two htl with h2 | h2 <;> rw [List.cons.injEq, List.cons.injEq] at h2 <;>
        obtain ⟨rfl, rfl, -⟩ := h2
      · exact Or.inr (Or.inr (Or.inr (Or.inr (Or.inl rfl))))
      · exact Or.inr (Or.inr (Or.inr (Or.inr (Or.inr rfl))))

/-! ## Selection loop invariants -/

theorem betterPool_eq_or (b p : Pool) : betterPool b p = b ∨ betterPool b p = p := by
  unfold betterPool
  split
  · exact Or.inr rfl
  · split
    · exact Or.inr rfl
    · split
      · exact Or.inr rfl
      · exact Or.inl rfl

theorem selectLoop_available : ∀ (ps : List Pool) (acc : Option Pool),
    (∀ b, acc = some b → b.available = true) →
    ∀ p, selectLoop acc ps = some p → p.available = true := by
  intro ps
  induction ps with
  | nil => intro acc hacc p hp; exact hacc p hp
  | cons q qs ih =>
    intro acc hacc p hp
    unfold selectLoop at hp
    by_cases hq : q.available
    · rw [hq] at hp
      simp only [Bool.not_true, Bool.false_eq_true, if_false] at hp
      cases acc with
      | none =>
        exact ih (some q) (fun b hb => by cases hb; exact hq) p hp
      | some b =>
        refine ih (some (betterPool b q)) (fun r hr => ?_) p hp
        cases hr
        rcases betterPool_eq_or b q with hbp | hbp <;> rw [hbp]
        · exact hacc b rfl
        · exact hq
    · rw [Bool.not_eq_true] at hq
      rw [hq] at hp
      simp only [Bool.not_false, if_true] at hp
      exact ih acc hacc p hp

theorem selectLoop_all_unavail : ∀ (ps : List Pool) (acc : Option Pool),
    (∀ p ∈ ps, p.available = false) → selectLoop acc ps = acc := by
  intro ps
  induction ps with
  | nil => intro acc _; rfl
  | cons q qs ih =>
    intro acc hall
    unfold selectLoop
    rw [hall q (List.mem_cons_self q qs)]
    simp only [Bool.not_false, if_true]
    exact ih acc (fun p hp => hall p (List.mem_cons_of_mem q hp))

/-! ## Claim theorems: storage -/

/-- Claim C1, counterexample: at the CACHEDEV pool and the VM name of the
repository test, the path computed by CreateVMDiskPath differs from the
path template worded in the specification (.vm-disks). -/
theorem createVMDiskPath_differs_from_spec_template :
    CreateVMDiskPath cachePool "test-vm" ≠ specVmDisksPath cachePool "test-vm" := by
  decide

/-- Claim C1, amended: for every pool and VM name the derived disk path
is exactly the pool path followed by /.qnap-vm/disks/ and the VM name
with the qcow2 extension, and re-deriving it for the same inputs yields
the identical string (pure deterministic template). -/
theorem createVMDiskPath_template (pool : Pool) (vmName : String) :
    CreateVMDiskPath pool vmName
        = pool.path ++ "/.qnap-vm/disks/" ++ vmName ++ ".qcow2" ∧
      CreateVMDiskPath pool vmName = CreateVMDiskPath pool vmName := by
  refine ⟨?_, rfl⟩
  unfold CreateVMDiskPath
  simp [String.append_assoc]

/-- Claim C3: for every permutation of the three available pools of
types USB (free 100), CACHEDEV (free 50) and ZFS (free 75), the
left-to-right best-pool reduction selects the CACHEDEV pool. -/
theorem bestPool_selects_cachedev (l : List Pool)
    (h : l.Perm [usbPool, cachePool, zfsPool]) :
    GetBestPool l = Except.ok cachePool := by
  rcases perm_three h with rfl | rfl | rfl | rfl | rfl | rfl <;> rfl

/-- Claim C3, witness at the identity permutation. -/
theorem bestPool_selects_cachedev_witness :
    GetBestPool [usbPool, cachePool, zfsPool] = Except.ok cachePool :=
  bestPool_selects_cachedev _ (List.Perm.refl _)

/-- Claim C10: GetBestPool never returns a pool whose availability flag
is false, and if the discovered list is nonempty but every pool in it is
unavailable, it fails with the no-available-pools error. -/
theorem bestPool_never_unavailable :
    (∀ (pools : List Pool) (p : Pool),
        GetBestPool pools = Except.ok p → p.available = true) ∧
    (∀ pools : List Pool, pools ≠ [] →
        (∀ p ∈ pools, p.available = false) →
        GetBestPool pools = Except.error "no available storage pools found") := by
  constructor
  · intro pools p h
    unfold GetBestPool at h
    by_cases he : pools.isEmpty
    · rw [if_pos he] at h; cases h
    · rw [if_neg he] at h
      cases hsel : selectLoop none pools with
      | none => rw [hsel] at h; cases h
      | some b =>
        rw [hsel] at h
        cases h
        exact selectLoop_available pools none (fun r hr => by cases hr) p hsel
  · intro pools hne hall
    unfold GetBestPool
    rw [if_neg (by simpa using hne)]
    rw [selectLoop_all_unavail pools none hall]

/-- Claim C10, witness: a successful selection yields an available pool,
and a nonempty all-unavailable list yields the error. -/
theorem bestPool_never_unavailable_witness :
    cachePool.available = true ∧
      GetBestPool [unavailPool] = Except.error "no available storage pools found" :=
  ⟨bestPool_never_unavailable.1 [usbPool, cachePool, zfsPool] cachePool rfl,
   bestPool_never_unavailable.2 [unavailPool] (by simp) (by decide)⟩

/-! ## Character scanning lemmas for parseSize -/

theorem takeDigits_append {ds rest : List Char}
    (h : ∀ c ∈ ds, c.isDigit = true)
    (hr : ∀ c, rest.head? = some c → c.isDigit = false) :
    takeDigits (ds ++ rest) = (ds, rest) := by
  induction ds with
  | nil =>
    cases rest with
    | nil => rfl
    | cons c cs =>
      simp only [List.nil_append, takeDigits, hr c rfl, Bool.false_eq_true,
        if_false]
  | cons d tl ih =>
    have ih2 := ih (fun c hc => h c (List.mem_cons_of_mem d hc))
    simp only [List.cons_append, takeDigits, h d (List.mem_cons_self d tl),
      if_true, List.append_eq, ih2]

/-- ASCII whitespace of the Go space class (space trimming and field
splitting). -/
def isSpaceGo (c : Char) : Bool :=
  c = ' ' || c = '\t' || c = '\n' || c = '\x0b' || c = '\x0c' || c = '\r'

/-- Split on the newline separator, keeping empty parts. -/
def splitLines : List Char → List (List Char)
  | [] => [[]]
  | c :: rest =>
    if c = '\n' then [] :: splitLines rest
    else
      match splitLines rest with
      | [] => [[c]]
      | l :: ls => (c :: l) :: ls

/-- Trim leading and trailing whitespace. -/
def trimSpace (cs : List Char) : List Char :=
  ((cs.dropWhile isSpaceGo).reverse.dropWhile isSpaceGo).reverse

/-- Accumulator pass of the whitespace field splitter. -/
def fieldsAux : List Char → List Char → List (List Char)
  | cur, [] => if cur = [] then [] else [cur.reverse]
  | cur, c :: rest =>
    if isSpaceGo c then
      if cur = [] then fieldsAux [] rest
      else cur.reverse :: fieldsAux [] rest
    else fieldsAux (c :: cur) rest

/-- Split into maximal whitespace-free runs. -/
def fieldsGo (cs : List Char) : List (List Char) := fieldsAux [] cs

/-- Prefix test over char lists. -/
def startsWith : List Char → List Char → Bool
  | [], _ => true
  | _ :: _, [] => false
  | p :: ps, c :: cs => if p = c then startsWith ps cs else false

/-- Substring containment test over char lists. -/
def containsSub (pat : List Char) : List Char → Bool
  | [] => startsWith pat []
  | c :: cs => startsWith pat (c :: cs) || containsSub pat cs

/-- Join with single space separators. -/
def joinSpace : List (List Char) → List Char
  | [] => []
  | [t] => t
  | t :: ts => t ++ ' ' :: joinSpace ts

/-- All characters are decimal digits. -/
def allDigits : List Char → Bool
  | [] => true
  | c :: cs => c.isDigit && allDigits cs

/-- Integer parsing of the Atoi kind: an optional sign, then one or
more digits, with the 64 bit range check. -/
def atoiGo (s : List Char) : Option Int :=
  match s with
  | [] => none
  | '+' :: ds =>
    if ds ≠ [] ∧ allDigits ds = true ∧ digitsToNat ds ≤ 9223372036854775807 then
      some (Int.ofNat (digitsToNat ds))
    else none
  | '-' :: ds =>
    if ds ≠ [] ∧ allDigits ds = true ∧ digitsToNat ds ≤ 9223372036854775808 then
      some (-(Int.ofNat (digitsToNat ds)))
    else none
  | ds =>
    if allDigits ds = true ∧ digitsToNat ds ≤ 9223372036854775807 then
      some (Int.ofNat (digitsToNat ds))
    else none

/-! ## VM list parsing (parseVMList in the virsh package) -/

/-- VMInfo mirrors the VMInfo struct of the virsh package. -/
structure VMInfo where
  id : Int
  name : List Char
  state : List Char
  uuid : List Char
  memory : Int
  cpus : Int
deriving DecidableEq

/-- Header detection of the VM list: the Id, Name and State marker
tokens all occur in the trimmed line. -/
def vmHeaderLine (t : List Char) : Bool :=
  containsSub "Id".data t && containsSub "Name".data t &&
    containsSub "State".data t

/-- The header scanning loop shared by the VM list and snapshot list
parse functions: before the header predicate first holds nothing is
collected; afterwards every nonblank trimmed line not containing the
dash separator marker is collected.  A line satisfying the header
predicate is always skipped. -/
def collectData (hp : List Char → Bool) : Bool → List (List Char) → List (List Char)
  | _, [] => []
  | hf, l :: ls =>
    if hp (trimSpace l) = true then collectData hp true ls
    else if hf = true ∧ trimSpace l ≠ [] ∧
        containsSub "---".data (trimSpace l) = false then
      trimSpace l :: collectData hp hf ls
    else collectData hp hf ls

/-- One data row of the VM list: rows with fewer than three fields are
skipped; the first field is the identifier (dash or unparsable means
zero), the second the name, the rest joined with single spaces the
state. -/
def parseVMRow (t : List Char) : Option VMInfo :=
  match fieldsGo t with
  | f0 :: f1 :: f2 :: frest =>
    some { id := if f0 = ['-'] then 0
                 else match atoiGo f0 with
                      | some n => n
                      | none => 0,
           name := f1, state := joinSpace (f2 :: frest),
           uuid := [], memory := 0, cpus := 0 }
  | _ => none

/-- parseVMList from the virsh package.  The Go function always returns
a nil error; totality of this embedding models that. -/
def parseVMList (output : List Char) : List VMInfo :=
  (collectData vmHeaderLine false (splitLines output)).filterMap parseVMRow

/-! ## Snapshot list parsing (parseSnapshotList in the virsh package) -/

/-- SnapshotInfo mirrors the SnapshotInfo struct of the virsh package. -/
structure SnapshotInfo where
  name : List Char
  creationTime : List Char
  state : List Char
  parent : List Char
  description : List Char
  current : Bool
deriving DecidableEq

/-- Header detection of the snapshot list: Name, Creation Time and
State marker tokens. -/
def snapHeaderLine (t : List Char) : Bool :=
  containsSub "Name".data t && containsSub "Creation Time".data t &&
    containsSub "State".data t

/-- One data row of the snapshot list: rows need at least five fields;
fields one to three joined give the creation time, the rest the state. -/
def parseSnapRow (t : List Char) : Option SnapshotInfo :=
  match fieldsGo t with
  | f0 :: f1 :: f2 :: f3 :: f4 :: frest =>
    some { name := f0, creationTime := joinSpace [f1, f2, f3],
           state := joinSpace (f4 :: frest),
           parent := [], description := [], current := false }
  | _ => none

/-- parseSnapshotList from the virsh package; always error free. -/
def parseSnapshotList (output : List Char) : List SnapshotInfo :=
  (collectData snapHeaderLine false (splitLines output)).filterMap parseSnapRow

/-! ## Stop and delete (StopVM and DeleteVM in the virsh package).
The remote executor is an oracle from the virsh command text to either
combined output or an error; each operation additionally returns the
ordered trace of virsh commands it issued. -/

/-- The remote executor abstraction. -/
def ExecOracle : Type := List Char → Except (List Char) (List Char)

/-- The virsh command built by StopVM: destroy under force, shutdown
otherwise, then the VM name. -/
def stopVMCommand (name : List Char) (force : Bool) : List Char :=
  (if force then "destroy".data else "shutdown".data) ++ ' ' :: name

/-- The virsh command built by DeleteVM for the undefine step. -/
def undefineCommand (name : List Char) : List Char :=
  "undefine ".data ++ name

/-- StopVM from the virsh package: one virsh invocation whose failure is
wrapped with the operation context. -/
def StopVM (exec : ExecOracle) (name : List Char) (force : Bool) :
    Except (List Char) Unit × List (List Char) :=
  match exec (stopVMCommand name force) with
  | Except.ok _ => (Except.ok (), [stopVMCommand name force])
  | Except.error e =>
    (Except.error ("failed to stop VM ".data ++ name ++ ": ".data ++ e),
     [stopVMCommand name force])

/-- DeleteVM from the virsh package: first StopVM with the force flag
fixed to true, its result deliberately discarded (the VM may already be
stopped), then the undefine command, whose outcome alone decides the
result. -/
def DeleteVM (exec : ExecOracle) (name : List Char) :
    Except (List Char) Unit × List (List Char) :=
  match StopVM exec name true with
  | (_, trace1) =>
    match exec (undefineCommand name) with
    | Except.ok _ => (Except.ok (), trace1 ++ [undefineCommand name])
    | Except.error e =>
      (Except.error ("failed to delete VM ".data ++ name ++ ": ".data ++ e),
       trace1 ++ [undefineCommand name])

/-! ## Domain description generation (generateDomainXML in the virsh
package).  The Go function fills a VMDomain struct and then marshals it
with the standard library XML encoder; the struct holds exactly the
values embedded in the document, so the claims about embedded values are
settled on the struct. -/

/-- Two-complement wrap of 64 bit signed integer arithmetic. -/
def wrap64 (x : Int) : Int := (x + 2 ^ 63) % 2 ^ 64 - 2 ^ 63

/-- VMConfig mirrors the VMConfig struct of the virsh package. -/
structure VMConfig where
  memory : Int
  cpus : Int
  diskSize : List Char
  diskPath : List Char
  isoPath : List Char

/-- The memory element: unit attribute and character data value. -/
structure MemoryElem where
  unit : List Char
  value : Int
deriving DecidableEq

/-- The vcpu element: placement attribute and character data value. -/
structure VCPUElem where
  placement : List Char
  value : Int
deriving DecidableEq

/-- The os type element: architecture, machine type and kind. -/
structure OSTypeElem where
  arch : List Char
  machine : List Char
  value : List Char

/-- One disk device entry of the generated document. -/
structure DiskDevice where
  dtype : List Char
  device : List Char
  driverName : List Char
  driverType : List Char
  sourceFile : List Char
  targetDev : List Char
  targetBus : List Char

/-- One network interface entry of the generated document. -/
structure NetInterface where
  ntype : List Char
  sourceBridge : List Char
  modelType : List Char

/-- The domain description document content. -/
structure VMDomain where
  dtype : List Char
  name : List Char
  memory : MemoryElem
  vcpu : VCPUElem
  osType : OSTypeElem
  bootDev : List Char
  emulator : List Char
  disks : List DiskDevice
  interfaces : List NetInterface

/-- generateDomainXML from the virsh package, at the struct level: the
memory value is the configured megabytes times 1024 (64 bit multiply)
with unit KiB, the vcpu value is the configured count, one qcow2 disk is
added when a disk path is set, and one user network interface with a
virtio model is always added. -/
def generateDomainXML (qvsPath name : List Char) (config : VMConfig) : VMDomain :=
  { dtype := "qemu".data
    name := name
    memory := { unit := "KiB".data, value := wrap64 (config.memory * 1024) }
    vcpu := { placement := "static".data, value := config.cpus }
    osType := { arch := "x86_64".data, machine := "pc-i440fx-2.3".data,
                value := "hvm".data }
    bootDev := "hd".data
    emulator := qvsPath ++ "/usr/bin/qemu-system-x86_64".data
    disks :=
      if config.diskPath ≠ [] then
        [{ dtype := "file".data, device := "disk".data,
           driverName := "qemu".data, driverType := "qcow2".data,
           sourceFile := config.diskPath,
           targetDev := "vda".data, targetBus := "virtio".data }]
      else []
    interfaces :=
      [{ ntype := "user".data, sourceBridge := [],
         modelType := "virtio".data }] }

/-! ## Memory statistics parsing (parseMemoryStats in the virsh
package) -/

/-- The memory part of the VMStats struct.  The percentage is a float64
in Go; it is modeled as an exact rational, which the claims about the
guard and the zero default do not distinguish. -/
structure MemStats where
  total : Int
  used : Int
  availableKB : Int
  percent : Rat
deriving DecidableEq

/-- Value of the digit run right after the key when the text starts
with the key followed by at least one digit. -/
def matchKeyNum (key : List Char) (cs : List Char) : Option Nat :=
  if startsWith key cs = true then
    match takeDigits (cs.drop key.length) with
    | ([], _) => none
    | (ds, _) => some (digitsToNat ds)
  else none

/-- Leftmost occurrence of the key followed by a digit run: the regex
search for the key with a digit capture group. -/
def findKeyNum (key : List Char) : List Char → Option Nat
  | [] => none
  | c :: cs =>
    match matchKeyNum key (c :: cs) with
    | some v => some v
    | none => findKeyNum key cs

/-- One line of the balloon statistics loop: the pair is the running
(used, total) state; each component is replaced when the line contains
its key, the regex finds a value and the 64 bit parse succeeds. -/
def memLineUpdate (st : Int × Int) (l : List Char) : Int × Int :=
  (if containsSub "balloon.current=".data (trimSpace l) = true then
      match findKeyNum "balloon.current=".data (trimSpace l) with
      | some v =>
        if v ≤ 9223372036854775807 then Int.ofNat v else st.1
      | none => st.1
    else st.1,
   if containsSub "balloon.maximum=".data (trimSpace l) = true then
      match findKeyNum "balloon.maximum=".data (trimSpace l) with
      | some v =>
        if v ≤ 9223372036854775807 then Int.ofNat v else st.2
      | none => st.2
    else st.2)

/-- parseMemoryStats from the virsh package: fold the balloon lines,
then derive available memory and the usage percentage only under the
positive-total guard; otherwise both stay at their zero values. -/
def parseMemoryStats (output : List Char) : MemStats :=
  match (splitLines output).foldl memLineUpdate (0, 0) with
  | (used, total) =>
    if 0 < total then
      { total := total, used := used, availableKB := total - used,
        percent := (used : Rat) / (total : Rat) * 100 }
    else
      { total := total, used := used, availableKB := 0, percent := 0 }

/-! ## Block statistics parsing (parseBlockStats in the virsh package).
The two regex sweeps search for block device entries of the form
block.<index>.<rd or wr>.<metric>=<value> and sum the values per
direction over every match, with the metric word being bytes for the
first sweep and reqs for the second. -/

/-- The dot, metric word, equals sign and digit run after the direction
letters: returns the parsed value and the digit run length. -/
def matchBlockTail (metric : List Char) (rest3 : List Char) :
    Option (Nat × Nat) :=
  match rest3 with
  | [] => none
  | c :: rest4 =>
    if c = '.' then
      if startsWith metric rest4 = true then
        match rest4.drop metric.length with
        | [] => none
        | c2 :: rest5 =>
          if c2 = '=' then
            match takeDigits rest5 with
            | ([], _) => none
            | (vs, _) => some (digitsToNat vs, vs.length)
          else none
      else none
    else none

/-- One block entry match attempt at the head of the text: the literal
block prefix, a nonempty device index digit run, a dot, the direction
letters, then the tail.  Returns the direction (true for read), the
value and the number of characters the whole match consumed. -/
def matchBlockAt (metric : List Char) (cs : List Char) :
    Option (Bool × Nat × Nat) :=
  if startsWith "block.".data cs = true then
    match takeDigits (cs.drop 6) with
    | ([], _) => none
    | (idx, rest1) =>
      match rest1 with
      | c1 :: c2 :: c3 :: rest3 =>
        if c1 = '.' ∧ c2 = 'r' ∧ c3 = 'd' then
          match matchBlockTail metric rest3 with
          | some (v, vlen) =>
            some (true, v, 6 + idx.length + 3 + 1 + metric.length + 1 + vlen)
          | none => none
        else if c1 = '.' ∧ c2 = 'w' ∧ c3 = 'r' then
          match matchBlockTail metric rest3 with
          | some (v, vlen) =>
            some (false, v, 6 + idx.length + 3 + 1 + metric.length + 1 + vlen)
          | none => none
        else none
      | _ => none
  else none

theorem matchBlockAt_consumed_pos {metric cs : List Char} {b : Bool}
    {v k : Nat} (h : matchBlockAt metric cs = some (b, v, k)) : 1 ≤ k := by
  unfold matchBlockAt at h
  repeat' split at h
  all_goals try cases h
  all_goals omega

/-- The nonoverlapping scan for block entry matches, leftmost first,
continuing after the end of each match: the semantics of finding every
submatch of the block regex.  The fuel argument makes the recursion
structural; every step strictly shortens the text (a match consumes at
least one character), so text length is always enough fuel. -/
def scanBlockAux (metric : List Char) : Nat → List Char → List (Bool × Nat)
  | 0, _ => []
  | _ + 1, [] => []
  | fuel + 1, c :: cs =>
    match matchBlockAt metric (c :: cs) with
    | some (b, v, k) => (b, v) :: scanBlockAux metric fuel ((c :: cs).drop k)
    | none => scanBlockAux metric fuel cs

/-- The sweep over the whole text, with adequate fuel. -/
def scanBlockMatches (metric cs : List Char) : List (Bool × Nat) :=
  scanBlockAux metric cs.length cs

/-- The block part of the VMStats struct. -/
structure BlockIOStats where
  readBytes : Int
  writeBytes : Int
  readReqs : Int
  writeReqs : Int
deriving DecidableEq

/-- The summation loop over the matches of one sweep, for one
direction: each parsed value within the 64 bit range whose direction
letters agree is added with 64 bit wraparound. -/
def sumMatches (dir : Bool) (acc : Int) : List (Bool × Nat) → Int
  | [] => acc
  | (b, v) :: ms =>
    if v ≤ 9223372036854775807 then
      if b = dir then sumMatches dir (wrap64 (acc + Int.ofNat v)) ms
      else sumMatches dir acc ms
    else sumMatches dir acc ms

/-- parseBlockStats from the virsh package: the bytes sweep feeds the
read and write byte totals, the reqs sweep the request totals. -/
def parseBlockStats (output : List Char) : BlockIOStats :=
  { readBytes := sumMatches true 0 (scanBlockMatches "bytes".data output)
    writeBytes := sumMatches false 0 (scanBlockMatches "bytes".data output)
    readReqs := sumMatches true 0 (scanBlockMatches "reqs".data output)
    writeReqs := sumMatches false 0 (scanBlockMatches "reqs".data output) }

/-! ## Claim theorems: delete semantics, domain document, memory guard,
headerless parsing -/

/-- Claim C7: DeleteVM always issues the force stop (destroy) command
first; its signature takes no force preference at all (the CLI force
flag only controls the confirmation prompt), and the stop step is
unconditionally forced.  A stop failure never fails the delete, and the
overall result is decided solely by the undefine command outcome. -/
theorem deleteVM_stops_then_undefines (exec : ExecOracle) (name : List Char) :
    (DeleteVM exec name).2 = [stopVMCommand name true, undefineCommand name] ∧
    stopVMCommand name true = "destroy ".data ++ name ∧
    ((DeleteVM exec name).1 = Except.ok () ↔
      ∃ o, exec (undefineCommand name) = Except.ok o) := by
  refine ⟨?_, rfl, ?_⟩
  · unfold DeleteVM StopVM
    cases h1 : exec (stopVMCommand name true) <;>
      cases h2 : exec (undefineCommand name) <;> simp [h1, h2]
  · unfold DeleteVM StopVM
    cases h1 : exec (stopVMCommand name true) <;>
      cases h2 : exec (undefineCommand name) <;> simp [h1, h2]

/-- The VM configuration of the domain generation test: 2048 MB of
memory and 2 CPUs. -/
def testVMConfig : VMConfig :=
  { memory := 2048, cpus := 2, diskSize := "20G".data,
    diskPath := "/share/CACHEDEV1_DATA/.qnap-vm/disks/test-vm.qcow2".data,
    isoPath := [] }

/-- Claim C5: for every configuration whose memory value times 1024
stays in the 64 bit range, the generated domain document embeds the
memory in KiB as megabytes times 1024 and the vcpu value as the
configured CPU count. -/
theorem generateDomainXML_memory_vcpu (qvsPath name : List Char)
    (config : VMConfig) (h1 : 0 ≤ config.memory)
    (h2 : config.memory * 1024 < 2 ^ 63) :
    (generateDomainXML qvsPath name config).memory.unit = "KiB".data ∧
    (generateDomainXML qvsPath name config).memory.value
        = config.memory * 1024 ∧
    (generateDomainXML qvsPath name config).vcpu.value = config.cpus := by
  refine ⟨rfl, ?_, rfl⟩
  show wrap64 (config.memory * 1024) = config.memory * 1024
  unfold wrap64
  omega

/-- Claim C5, witness: memory 2048 and 2 CPUs give the embedded values
2097152 and 2. -/
theorem generateDomainXML_memory_vcpu_witness :
    (generateDomainXML "/QVS".data "test-vm".data testVMConfig).memory.value
        = 2097152 ∧
      (generateDomainXML "/QVS".data "test-vm".data testVMConfig).vcpu.value
        = 2 := by
  have h := generateDomainXML_memory_vcpu "/QVS".data "test-vm".data
    testVMConfig (by decide) (by decide)
  exact ⟨h.2.1.trans (by decide), h.2.2⟩

theorem foldl_memLineUpdate_total : ∀ (ls : List (List Char)) (st : Int × Int),
    (∀ l ∈ ls, containsSub "balloon.maximum=".data (trimSpace l) = false) →
    (ls.foldl memLineUpdate st).2 = st.2 := by
  intro ls
  induction ls with
  | nil => intro st _; rfl
  | cons l ls ih =>
    intro st h
    rw [List.foldl_cons, ih _ (fun x hx => h x (List.mem_cons_of_mem l hx))]
    unfold memLineUpdate
    dsimp only
    rw [if_neg (by rw [h l (List.mem_cons_self l ls)]; exact Bool.false_ne_true)]

/-- Claim C9: the division deriving the memory usage percentage runs
only under the positive-total guard, so it never divides by zero; when
the guard fails the available and percent fields keep their zero
values, and when the balloon maximum key is absent from every line the
total itself stays zero. -/
theorem parseMemoryStats_guard (output : List Char) :
    ((parseMemoryStats output).total ≤ 0 →
      (parseMemoryStats output).availableKB = 0 ∧
        (parseMemoryStats output).percent = 0) ∧
    (0 < (parseMemoryStats output).total →
      (parseMemoryStats output).availableKB
          = (parseMemoryStats output).total - (parseMemoryStats output).used ∧
        (parseMemoryStats output).percent
          = ((parseMemoryStats output).used : Rat)
              / ((parseMemoryStats output).total : Rat) * 100) ∧
    ((∀ l ∈ splitLines output,
        containsSub "balloon.maximum=".data (trimSpace l) = false) →
      (parseMemoryStats output).total = 0) := by
  rcases hfold : (splitLines output).foldl memLineUpdate (0, 0) with ⟨used, total⟩
  have hp : parseMemoryStats output =
      (if 0 < total then
        { total := total, used := used, availableKB := total - used,
          percent := (used : Rat) / (total : Rat) * 100 }
      else
        { total := total, used := used, availableKB := 0,
          percent := 0 } : MemStats) := by
    unfold parseMemoryStats
    rw [hfold]
  by_cases hpos : 0 < total
  · rw [hp, if_pos hpos]
    refine ⟨fun hle => absurd hpos (not_lt.mpr hle),
      fun _ => ⟨rfl, rfl⟩, fun hall => ?_⟩
    have ht := foldl_memLineUpdate_total (splitLines output) (0, 0) hall
    rw [hfold] at ht
    exact ht
  · rw [hp, if_neg hpos]
    refine ⟨fun _ => ⟨rfl, rfl⟩, fun hlt => absurd hlt hpos, fun hall => ?_⟩
    have ht := foldl_memLineUpdate_total (splitLines output) (0, 0) hall
    rw [hfold] at ht
    exact ht

/-- Claim C9, witness: output carrying only a balloon current value has
zero total, zero available memory and zero percent. -/
theorem parseMemoryStats_guard_witness :
    (parseMemoryStats "balloon.current=100".data).availableKB = 0 ∧
      (parseMemoryStats "balloon.current=100".data).percent = 0 ∧
      (parseMemoryStats "balloon.current=100".data).total = 0 := by
  have h := parseMemoryStats_guard "balloon.current=100".data
  have h3 := h.2.2 (by decide)
  have h1 := h.1 (by rw [h3])
  exact ⟨h1.1, h1.2, h3⟩

theorem collectData_no_header :
    ∀ (hp : List Char → Bool) (ls : List (List Char)),
    (∀ l ∈ ls, hp (trimSpace l) = false) → collectData hp false ls = [] := by
  intro hp ls h
  induction ls with
  | nil => rfl
  | cons l ls ih =>
    unfold collectData
    rw [if_neg (by rw [h l (List.mem_cons_self l ls)]; exact Bool.false_ne_true)]
    rw [if_neg (by intro hcon; exact absurd hcon.1 (by simp))]
    exact ih (fun x hx => h x (List.mem_cons_of_mem l hx))

/-- Claim C8: when the header marker tokens never co-occur on any line,
both list parse functions return the empty result (and, the embeddings
being total functions, no error, exactly as the Go functions always
return a nil error); moreover a data row with too few fields is always
skipped rather than failing the parse (fewer than three for the VM
list, fewer than five for the snapshot list). -/
theorem headerless_lists_parse_empty (out1 out2 : List Char)
    (h1 : ∀ l ∈ splitLines out1, vmHeaderLine (trimSpace l) = false)
    (h2 : ∀ l ∈ splitLines out2, snapHeaderLine (trimSpace l) = false) :
    parseVMList out1 = [] ∧ parseSnapshotList out2 = [] ∧
      (∀ t : List Char, (fieldsGo t).length < 3 → parseVMRow t = none) ∧
      (∀ t : List Char, (fieldsGo t).length < 5 → parseSnapRow t = none) := by
  refine ⟨?_, ?_, ?_, ?_⟩
  · unfold parseVMList
    rw [collectData_no_header _ _ h1]
    rfl
  · unfold parseSnapshotList
    rw [collectData_no_header _ _ h2]
    rfl
  · intro t hlen
    unfold parseVMRow
    rcases hf : fieldsGo t with - | ⟨f0, - | ⟨f1, - | ⟨f2, frest⟩⟩⟩ <;>
      first
      | rfl
      | (rw [hf] at hlen; simp only [List.length_cons] at hlen; omega)
  · intro t hlen
    unfold parseSnapRow
    rcases hf : fieldsGo t with
        - | ⟨f0, - | ⟨f1, - | ⟨f2, - | ⟨f3, - | ⟨f4, frest⟩⟩⟩⟩⟩ <;>
      first
      | rfl
      | (rw [hf] at hlen; simp only [List.length_cons] at hlen; omega)

/-- Claim C8, witness: a concrete headerless text for each parser. -/
theorem headerless_lists_parse_empty_witness :
    parseVMList "error: failed to connect\n".data = [] ∧
      parseSnapshotList "no snapshots\n".data = [] := by
  have h := headerless_lists_parse_empty "error: failed to connect\n".data
    "no snapshots\n".data (by decide) (by decide)
  exact ⟨h.1, h.2.1⟩

/-! ## Line and field structure lemmas for the VM list claim -/

theorem splitLines_append {l rest : List Char} (h : '\n' ∉ l) :
    splitLines (l ++ '\n' :: rest) = l :: splitLines rest := by
  induction l with
  | nil => rfl
  | cons c cs ih =>
    have hc : ¬ c = '\n' := fun hc => h (hc ▸ List.mem_cons_self c cs)
    simp only [List.cons_append, splitLines, hc, if_false, List.append_eq]
    rw [ih (fun hm => h (List.mem_cons_of_mem c hm))]

theorem splitLines_no_newline {l : List Char} (h : '\n' ∉ l) :
    splitLines l = [l] := by
  induction l with
  | nil => rfl
  | cons c cs ih =>
    have hc : ¬ c = '\n' := fun hc => h (hc ▸ List.mem_cons_self c cs)
    simp only [splitLines, hc, if_false]
    rw [ih (fun hm => h (List.mem_cons_of_mem c hm))]

def joinNL : List (List Char) → List Char
  | [] => []
  | [l] => l
  | l :: ls => l ++ '\n' :: joinNL ls

theorem splitLines_joinNL : ∀ {ls : List (List Char)}, ls ≠ [] →
    (∀ l ∈ ls, '\n' ∉ l) → splitLines (joinNL ls) = ls := by
  intro ls
  induction ls with
  | nil => intro h; exact absurd rfl h
  | cons l ls ih =>
    intro _ h
    cases ls with
    | nil => exact splitLines_no_newline (h l (List.mem_cons_self l []))
    | cons l2 ls2 =>
      show splitLines (l ++ '\n' :: joinNL (l2 :: ls2)) = _
      rw [splitLines_append (h l (List.mem_cons_self l _))]
      rw [ih (by simp) (fun x hx => h x (List.mem_cons_of_mem l hx))]

theorem trimSpace_eq_self_of {l : List Char}
    (h1 : ∀ c, l.head? = some c → isSpaceGo c = false)
    (h2 : ∀ c, l.getLast? = some c → isSpaceGo c = false) :
    trimSpace l = l := by
  unfold trimSpace
  have hd : l.dropWhile isSpaceGo = l := by
    cases l with
    | nil => rfl
    | cons c cs =>
      rw [List.dropWhile_cons,
        if_neg (by rw [h1 c rfl]; exact Bool.false_ne_true)]
  rw [hd]
  have hd2 : l.reverse.dropWhile isSpaceGo = l.reverse := by
    cases hr : l.reverse with
    | nil => rfl
    | cons c cs =>
      have hlast : l.getLast? = some c := by
        rw [← List.head?_reverse, hr]; rfl
      rw [List.dropWhile_cons,
        if_neg (by rw [h2 c hlast]; exact Bool.false_ne_true)]
  rw [hd2, List.reverse_reverse]

theorem mem_joinSpace : ∀ {c : Char} {ts : List (List Char)},
    c ∈ joinSpace ts → c = ' ' ∨ ∃ t ∈ ts, c ∈ t := by
  intro c ts
  induction ts with
  | nil => intro h; cases h
  | cons t ts ih =>
    intro h
    cases ts with
    | nil => exact Or.inr ⟨t, List.mem_cons_self t [], h⟩
    | cons t2 ts2 =>
      rw [show joinSpace (t :: t2 :: ts2) = t ++ ' ' :: joinSpace (t2 :: ts2)
          from rfl, List.mem_append] at h
      rcases h with h | h
      · exact Or.inr ⟨t, List.mem_cons_self t _, h⟩
      · rcases List.mem_cons.mp h with rfl | h
        · exact Or.inl rfl
        · rcases ih h with h | ⟨u, hu, hc⟩
          · exact Or.inl h
          · exact Or.inr ⟨u, List.mem_cons_of_mem t hu, hc⟩

theorem joinSpace_ne_nil : ∀ {ts : List (List Char)}, ts ≠ [] →
    (∀ t ∈ ts, t ≠ []) → joinSpace ts ≠ [] := by
  intro ts
  induction ts with
  | nil => intro h; exact absurd rfl h
  | cons t ts _ =>
    intro _ h
    cases ts with
    | nil => exact h t (List.mem_cons_self t [])
    | cons t2 ts2 =>
      show t ++ ' ' :: joinSpace (t2 :: ts2) ≠ []
      simp

theorem joinSpace_head_not_space {ts : List (List Char)}
    (h : ∀ t ∈ ts, t ≠ [] ∧ ∀ c ∈ t, isSpaceGo c = false) :
    ∀ c, (joinSpace ts).head? = some c → isSpaceGo c = false := by
  intro c hc
  rcases ts with - | ⟨t, ts⟩
  · cases hc
  · obtain ⟨ht, htc⟩ := h t (List.mem_cons_self t ts)
    obtain ⟨a, t2, hat⟩ := List.exists_cons_of_ne_nil ht
    subst hat
    have hhead : (joinSpace ((a :: t2) :: ts)).head? = some a := by
      cases ts with
      | nil => rfl
      | cons u us => rfl
    rw [hhead] at hc
    injection hc with hac
    subst hac
    exact htc a (List.mem_cons_self a t2)

theorem joinSpace_getLast_not_space : ∀ (ts : List (List Char)),
    (∀ t ∈ ts, t ≠ [] ∧ ∀ c ∈ t, isSpaceGo c = false) →
    ∀ c, (joinSpace ts).getLast? = some c → isSpaceGo c = false := by
  intro ts
  induction ts with
  | nil => intro _ c hc; cases hc
  | cons t ts ih =>
    intro h c hc
    cases ts with
    | nil =>
      obtain ⟨ht, htc⟩ := h t (List.mem_cons_self t [])
      obtain ⟨t2, b, hb⟩ := (List.eq_nil_or_concat t).resolve_left ht
      have hb2 : t = t2 ++ [b] := by simpa using hb
      have : (joinSpace [t]).getLast? = some b := by
        show t.getLast? = some b
        rw [hb2, List.getLast?_concat]
      rw [this] at hc
      injection hc with hbc
      subst hbc
      exact htc b (by rw [hb2]; simp)
    | cons t2 ts2 =>
      have hne : joinSpace (t2 :: ts2) ≠ [] :=
        joinSpace_ne_nil (by simp)
          (fun u hu => (h u (List.mem_cons_of_mem t hu)).1)
      obtain ⟨l2, a, hla⟩ := (List.eq_nil_or_concat _).resolve_left hne
      have hla2 : joinSpace (t2 :: ts2) = l2 ++ [a] := by simpa using hla
      have hstep : (joinSpace (t :: t2 :: ts2)).getLast? = some a := by
        rw [show joinSpace (t :: t2 :: ts2) = t ++ ' ' :: joinSpace (t2 :: ts2)
            from rfl, hla2,
          show t ++ ' ' :: (l2 ++ [a]) = (t ++ ' ' :: l2) ++ [a] by simp,
          List.getLast?_concat]
      rw [hstep] at hc
      injection hc with hac
      subst hac
      refine ih (fun u hu => h u (List.mem_cons_of_mem t hu)) a ?_
      rw [hla2, List.getLast?_concat]

theorem trimSpace_joinSpace {ts : List (List Char)}
    (h : ∀ t ∈ ts, t ≠ [] ∧ ∀ c ∈ t, isSpaceGo c = false) :
    trimSpace (joinSpace ts) = joinSpace ts :=
  trimSpace_eq_self_of (joinSpace_head_not_space h)
    (joinSpace_getLast_not_space ts h)

theorem fieldsAux_token : ∀ (t cur rest : List Char),
    (∀ c ∈ t, isSpaceGo c = false) →
    fieldsAux cur (t ++ rest) = fieldsAux (t.reverse ++ cur) rest := by
  intro t
  induction t with
  | nil => intro cur rest _; rfl
  | cons c t ih =>
    intro cur rest h
    simp only [List.cons_append, fieldsAux, h c (List.mem_cons_self c t),
      Bool.false_eq_true, if_false, List.append_eq]
    rw [ih (c :: cur) rest (fun x hx => h x (List.mem_cons_of_mem c hx))]
    congr 1
    simp

theorem fieldsGo_joinSpace : ∀ (ts : List (List Char)), ts ≠ [] →
    (∀ t ∈ ts, t ≠ [] ∧ ∀ c ∈ t, isSpaceGo c = false) →
    fieldsGo (joinSpace ts) = ts := by
  intro ts
  induction ts with
  | nil => intro h; exact absurd rfl h
  | cons t ts ih =>
    intro _ h
    obtain ⟨ht, htc⟩ := h t (List.mem_cons_self t ts)
    cases ts with
    | nil =>
      show fieldsAux [] (joinSpace [t]) = [t]
      rw [show joinSpace [t] = t ++ [] from (List.append_nil t).symm,
        fieldsAux_token t [] [] htc]
      simp only [fieldsAux, List.append_nil]
      rw [if_neg (by simp [ht]), List.reverse_reverse]
    | cons t2 ts2 =>
      show fieldsAux [] (joinSpace (t :: t2 :: ts2)) = _
      rw [show joinSpace (t :: t2 :: ts2) = t ++ ' ' :: joinSpace (t2 :: ts2)
          from rfl, fieldsAux_token t [] _ htc, List.append_nil]
      simp only [fieldsAux]
      rw [if_pos (show isSpaceGo ' ' = true from rfl),
        if_neg (show ¬ t.reverse = [] from by simp [ht]),
        List.reverse_reverse]
      rw [show fieldsAux [] (joinSpace (t2 :: ts2))
          = fieldsGo (joinSpace (t2 :: ts2)) from rfl]
      rw [ih (by simp) (fun x hx => h x (List.mem_cons_of_mem t hx))]

theorem collectData_collects (hp : List Char → Bool) :
    ∀ (ls : List (List Char)),
    (∀ l ∈ ls, trimSpace l = l ∧ hp l = false ∧ l ≠ [] ∧
      containsSub "---".data l = false) →
    collectData hp true ls = ls := by
  intro ls
  induction ls with
  | nil => intro _; rfl
  | cons l ls ih =>
    intro h
    obtain ⟨htrim, hhp, hne, hsep⟩ := h l (List.mem_cons_self l ls)
    simp only [collectData, htrim, hhp, Bool.false_eq_true, if_false]
    rw [if_pos ⟨trivial, hne, hsep⟩]
    rw [ih (fun x hx => h x (List.mem_cons_of_mem l hx))]

/-- One well-formed data row of the VM list, given by its tokens: the
identifier token, the name token, and the nonempty state token list. -/
structure VMRow where
  tok0 : List Char
  name : List Char
  stateToks : List (List Char)

/-- A table token: nonempty and whitespace free. -/
def goodTok (t : List Char) : Prop := t ≠ [] ∧ ∀ c ∈ t, isSpaceGo c = false

/-- The rendered text line of a row: its tokens separated by single
spaces. -/
def mkRowLine (r : VMRow) : List Char :=
  joinSpace (r.tok0 :: r.name :: r.stateToks)

/-- The identifier a row yields: zero for the dash token, the parsed
integer for a parsable token, zero otherwise. -/
def rowId (r : VMRow) : Int :=
  if r.tok0 = ['-'] then 0 else (atoiGo r.tok0).getD 0

/-- The record a well-formed row must parse to. -/
def expectedVM (r : VMRow) : VMInfo :=
  { id := rowId r, name := r.name, state := joinSpace r.stateToks,
    uuid := [], memory := 0, cpus := 0 }

/-- Well-formedness of a row: all tokens good, at least one state
token, and the rendered line triggers neither the header detection nor
the separator skip. -/
def rowGood (r : VMRow) : Prop :=
  goodTok r.tok0 ∧ goodTok r.name ∧ r.stateToks ≠ [] ∧
    (∀ t ∈ r.stateToks, goodTok t) ∧
    vmHeaderLine (mkRowLine r) = false ∧
    containsSub "---".data (mkRowLine r) = false

/-- The concrete header and separator lines of the list output. -/
def vmHeaderText : List Char := " Id   Name       State".data

def vmSepText : List Char := "----------------------------".data

/-- A full well-formed VM list text: header, separator, then the
rendered rows. -/
def vmListInput (rows : List VMRow) : List Char :=
  vmHeaderText ++ ('\n' :: (vmSepText ++ ('\n' :: joinNL (rows.map mkRowLine))))

instance goodTokDecidable (t : List Char) : Decidable (goodTok t) := by
  unfold goodTok
  infer_instance

instance rowGoodDecidable (r : VMRow) : Decidable (rowGood r) := by
  unfold rowGood
  infer_instance

theorem rowGood_toks {r : VMRow} (h : rowGood r) :
    ∀ t ∈ r.tok0 :: r.name :: r.stateToks, t ≠ [] ∧
      ∀ c ∈ t, isSpaceGo c = false := by
  intro t ht
  rcases List.mem_cons.mp ht with rfl | ht
  · exact h.1
  · rcases List.mem_cons.mp ht with rfl | ht
    · exact h.2.1
    · exact h.2.2.2.1 t ht

theorem mkRowLine_no_newline {r : VMRow} (h : rowGood r) :
    '\n' ∉ mkRowLine r := by
  intro hmem
  rcases mem_joinSpace hmem with hsp | ⟨t, ht, hc⟩
  · cases hsp
  · exact absurd ((rowGood_toks h t ht).2 '\n' hc) (by decide)

theorem parseVMRow_mkRowLine (r : VMRow) (h : rowGood r) :
    parseVMRow (mkRowLine r) = some (expectedVM r) := by
  obtain ⟨s1, srest, hs⟩ := List.exists_cons_of_ne_nil h.2.2.1
  have hfields : fieldsGo (mkRowLine r) = r.tok0 :: r.name :: r.stateToks :=
    fieldsGo_joinSpace _ (by simp) (rowGood_toks h)
  unfold parseVMRow
  rw [hfields, hs]
  show some _ = some (expectedVM r)
  unfold expectedVM rowId
  rw [← hs]
  cases hat : atoiGo r.tok0 <;> by_cases hdash : r.tok0 = ['-'] <;>
    simp [hat, hdash]

theorem filterMap_parseVMRow : ∀ (rows : List VMRow),
    (∀ r ∈ rows, rowGood r) →
    (rows.map mkRowLine).filterMap parseVMRow = rows.map expectedVM := by
  intro rows
  induction rows with
  | nil => intro _; rfl
  | cons r rows ih =>
    intro h
    rw [List.map_cons, List.filterMap_cons, List.map_cons,
      parseVMRow_mkRowLine r (h r (List.mem_cons_self r rows)),
      ih (fun x hx => h x (List.mem_cons_of_mem r hx))]

theorem collectData_vm_start (rest : List (List Char)) :
    collectData vmHeaderLine false (vmHeaderText :: vmSepText :: rest)
      = collectData vmHeaderLine true rest := by
  simp only [collectData]
  rw [if_pos (show vmHeaderLine (trimSpace vmHeaderText) = true by decide)]
  rw [if_neg (show ¬ vmHeaderLine (trimSpace vmSepText) = true by decide)]
  rw [if_neg (show ¬ (True ∧ trimSpace vmSepText ≠ [] ∧
    containsSub "---".data (trimSpace vmSepText) = false) by decide)]

/-- Claim C4: for every well-formed VM list text with N data rows below
the detected header (each row an identifier token, a name token and one
or more state tokens), parseVMList returns exactly N records; a row
whose first token is the dash yields identifier 0, a row whose first
token parses as an integer yields that integer, the second token
becomes the name, and all remaining tokens joined by single spaces
become the state. -/
theorem parseVMList_wellformed (rows : List VMRow)
    (hg : ∀ r ∈ rows, rowGood r) :
    parseVMList (vmListInput rows) = rows.map expectedVM ∧
    (parseVMList (vmListInput rows)).length = rows.length ∧
    (∀ r ∈ rows, r.tok0 = ['-'] → rowId r = 0) ∧
    (∀ r ∈ rows, ∀ n : Int, atoiGo r.tok0 = some n → rowId r = n) := by
  have hmain : parseVMList (vmListInput rows) = rows.map expectedVM := by
    unfold parseVMList vmListInput
    rw [splitLines_append (by decide), splitLines_append (by decide),
      collectData_vm_start]
    cases rows with
    | nil => rfl
    | cons r rest =>
      rw [splitLines_joinNL (by simp) (by
        intro l hl
        rw [List.mem_map] at hl
        obtain ⟨q, hq, rfl⟩ := hl
        exact mkRowLine_no_newline (hg q hq))]
      rw [collectData_collects vmHeaderLine _ (by
        intro l hl
        rw [List.mem_map] at hl
        obtain ⟨q, hq, rfl⟩ := hl
        have hgq := hg q hq
        exact ⟨trimSpace_joinSpace (rowGood_toks hgq),
          hgq.2.2.2.2.1,
          joinSpace_ne_nil (by simp)
            (fun u hu => (rowGood_toks hgq u hu).1),
          hgq.2.2.2.2.2⟩)]
      exact filterMap_parseVMRow _ hg
  refine ⟨hmain, by rw [hmain, List.length_map],
    fun r hr hd => ?_, fun r hr n hn => ?_⟩
  · unfold rowId
    rw [if_pos hd]
  · have hne : ¬ r.tok0 = ['-'] := fun hd => by rw [hd] at hn; cases hn
    unfold rowId
    rw [if_neg hne, hn]
    rfl

/-- The rows of the repository test for the VM list parser. -/
def testRows : List VMRow :=
  [⟨"1".data, "vm1".data, ["running".data]⟩,
   ⟨"2".data, "vm2".data, ["running".data]⟩,
   ⟨"-".data, "vm3".data, ["shut".data, "off".data]⟩,
   ⟨"-".data, "vm4".data, ["shut".data, "off".data]⟩]

/-- Claim C4, witness: the four test rows parse to the four expected
records. -/
theorem parseVMList_wellformed_witness :
    parseVMList (vmListInput testRows) = testRows.map expectedVM ∧
      (parseVMList (vmListInput testRows)).length = 4 := by
  have h := parseVMList_wellformed testRows (by decide)
  exact ⟨h.1, h.2.1.trans (by decide)⟩

/-! ## Block entry rendering for the statistics summation claim -/

/-- One block device statistics entry of a domstats output: the device
index digits, the direction (true for read), whether it is a bytes or a
requests entry, and the value digits. -/
structure BlockEntry where
  idx : List Char
  isRead : Bool
  isBytes : Bool
  val : List Char

/-- The metric word printed in the entry. -/
def metricOf (e : BlockEntry) : List Char :=
  if e.isBytes then "bytes".data else "reqs".data

/-- The rendered entry line. -/
def renderEntry (e : BlockEntry) : List Char :=
  "block.".data ++ (e.idx ++ ('.' ::
    ((if e.isRead then "rd".data else "wr".data) ++ ('.' ::
      (metricOf e ++ ('=' :: e.val))))))

/-- The rendered output text: one entry per line, newline terminated. -/
def renderAll : List BlockEntry → List Char
  | [] => []
  | e :: es => renderEntry e ++ '\n' :: renderAll es

/-- Entry well-formedness: nonempty digit runs for index and value. -/
def goodEntry (e : BlockEntry) : Prop :=
  e.idx ≠ [] ∧ (∀ c ∈ e.idx, c.isDigit = true) ∧
    e.val ≠ [] ∧ (∀ c ∈ e.val, c.isDigit = true)

instance goodEntryDecidable (e : BlockEntry) : Decidable (goodEntry e) := by
  unfold goodEntry
  infer_instance

theorem startsWith_append_self : ∀ (p x : List Char),
    startsWith p (p ++ x) = true := by
  intro p x
  induction p with
  | nil => rfl
  | cons c cs ih =>
    simp only [List.cons_append, startsWith, List.append_eq]
    rw [if_true]
    exact ih

theorem takeDigits_run {vs q : List Char} (hvs : vs ≠ [])
    (hdig : ∀ c ∈ vs, c.isDigit = true)
    (hq : ∀ c, q.head? = some c → c.isDigit = false) :
    takeDigits (vs ++ q) = (vs, q) :=
  takeDigits_append hdig hq

theorem matchBlockTail_correct {metric vs q : List Char}
    (hvs : vs ≠ []) (hdig : ∀ c ∈ vs, c.isDigit = true)
    (hq : ∀ c, q.head? = some c → c.isDigit = false) :
    matchBlockTail metric ('.' :: (metric ++ ('=' :: (vs ++ q))))
      = some (digitsToNat vs, vs.length) := by
  obtain ⟨v, vs2, rfl⟩ := List.exists_cons_of_ne_nil hvs
  simp only [matchBlockTail]
  rw [if_true,
    if_pos (startsWith_append_self metric ('=' :: (v :: vs2 ++ q)))]
  rw [show (metric ++ ('=' :: (v :: vs2 ++ q))).drop metric.length
      = '=' :: (v :: vs2 ++ q) from List.drop_left metric _]
  have ht : takeDigits (v :: (vs2 ++ q)) = (v :: vs2, q) :=
    takeDigits_run (by simp) hdig hq
  simp [ht]

/-- The direction word of an entry. -/
def dirWord (e : BlockEntry) : List Char :=
  if e.isRead then "rd".data else "wr".data

theorem matchBlockAt_render (e : BlockEntry) (he : goodEntry e)
    (metric q : List Char) (res : Option (Nat × Nat))
    (htail : matchBlockTail metric
        ('.' :: (metricOf e ++ ('=' :: (e.val ++ q)))) = res) :
    matchBlockAt metric (renderEntry e ++ q)
      = res.map (fun p =>
          (e.isRead, p.1,
            6 + e.idx.length + 3 + 1 + metric.length + 1 + p.2)) := by
  obtain ⟨hidxne, hidxd, hvalne, hvald⟩ := he
  obtain ⟨i, idx2, hidx⟩ := List.exists_cons_of_ne_nil hidxne
  have hrw : renderEntry e ++ q
      = "block.".data ++ (e.idx ++ ('.' :: (dirWord e ++ ('.' ::
          (metricOf e ++ ('=' :: (e.val ++ q))))))) := by
    simp [renderEntry, dirWord, List.append_assoc]
  unfold matchBlockAt
  rw [hrw, if_pos (startsWith_append_self _ _)]
  rw [show ("block.".data ++ (e.idx ++ ('.' :: (dirWord e ++ ('.' ::
      (metricOf e ++ ('=' :: (e.val ++ q)))))))).drop 6
      = e.idx ++ ('.' :: (dirWord e ++ ('.' ::
          (metricOf e ++ ('=' :: (e.val ++ q))))))
      from List.drop_left "block.".data _]
  rw [takeDigits_append hidxd (by intro c hc; cases hc; decide)]
  rw [hidx]
  cases hr : e.isRead
  · rw [show dirWord e = "wr".data from by rw [dirWord, hr]; rfl]
    rw [show ("wr".data : List Char) ++ ('.' ::
        (metricOf e ++ ('=' :: (e.val ++ q))))
        = 'w' :: ('r' :: ('.' :: (metricOf e ++ ('=' :: (e.val ++ q)))))
        from rfl]
    cases res with
    | none => simp [htail]
    | some p => simp [htail]
  · rw [show dirWord e = "rd".data from by rw [dirWord, hr]; rfl]
    rw [show ("rd".data : List Char) ++ ('.' ::
        (metricOf e ++ ('=' :: (e.val ++ q))))
        = 'r' :: ('d' :: ('.' :: (metricOf e ++ ('=' :: (e.val ++ q)))))
        from rfl]
    cases res with
    | none => simp [htail]
    | some p => simp [htail]

theorem metricOf_true {e : BlockEntry} (h : e.isBytes = true) :
    metricOf e = "bytes".data := by
  simp [metricOf, h]

theorem metricOf_false {e : BlockEntry} (h : e.isBytes = false) :
    metricOf e = "reqs".data := by
  simp [metricOf, h]

theorem startsWith_reqs_bytes (w : List Char) :
    startsWith "reqs".data ("bytes".data ++ w) = false := rfl

theorem startsWith_bytes_reqs (w : List Char) :
    startsWith "bytes".data ("reqs".data ++ w) = false := rfl

theorem matchBlockTail_wrong {e : BlockEntry} {metric : List Char}
    (w : List Char) (hm : metric = "bytes".data ∨ metric = "reqs".data)
    (hne : metric ≠ metricOf e) :
    matchBlockTail metric ('.' :: (metricOf e ++ w)) = none := by
  have hfalse : startsWith metric (metricOf e ++ w) = false := by
    rcases hm with rfl | rfl
    · cases hb : e.isBytes
      · rw [metricOf_false hb]
        exact startsWith_bytes_reqs w
      · exact absurd (metricOf_true hb).symm hne
    · cases hb : e.isBytes
      · exact absurd (metricOf_false hb).symm hne
      · rw [metricOf_true hb]
        exact startsWith_reqs_bytes w
  simp only [matchBlockTail]
  rw [if_true, if_neg (by rw [hfalse]; exact Bool.false_ne_true)]

/-! ## Position by position failure of the scan inside foreign text -/

/-- Every scan position inside the segment (with the fixed continuation
after it) fails to match. -/
def AllFail (metric r : List Char) : List Char → Prop
  | [] => True
  | c :: cs => matchBlockAt metric (c :: (cs ++ r)) = none ∧ AllFail metric r cs

theorem matchBlockAt_none_head {metric : List Char} {c : Char} {cs : List Char}
    (h : c ≠ 'b' ∨ ∀ c2 cs2, cs = c2 :: cs2 → c2 ≠ 'l') :
    matchBlockAt metric (c :: cs) = none := by
  have hsw : startsWith "block.".data (c :: cs) = false := by
    show startsWith ('b' :: "lock.".data) (c :: cs) = false
    simp only [startsWith]
    by_cases hb : ('b' : Char) = c
    · rw [if_pos hb]
      cases cs with
      | nil => rfl
      | cons c2 cs2 =>
        rcases h with h | h
        · exact absurd hb.symm h
        · show startsWith ('l' :: "ock.".data) (c2 :: cs2) = false
          simp only [startsWith]
          rw [if_neg (fun he => (h c2 cs2 rfl) he.symm)]
    · rw [if_neg hb]
  unfold matchBlockAt
  rw [if_neg (by rw [hsw]; exact Bool.false_ne_true)]

theorem allFail_append {metric r : List Char} : ∀ {xs ys : List Char},
    AllFail metric (ys ++ r) xs → AllFail metric r ys →
    AllFail metric r (xs ++ ys) := by
  intro xs ys hx hy
  induction xs with
  | nil => exact hy
  | cons c cs ih =>
    refine ⟨?_, ih hx.2⟩
    have h1 := hx.1
    rwa [← List.append_assoc] at h1

theorem allFail_not_b {metric r : List Char} : ∀ {xs : List Char},
    (∀ c ∈ xs, c ≠ 'b') → AllFail metric r xs := by
  intro xs h
  induction xs with
  | nil => trivial
  | cons c cs ih =>
    exact ⟨matchBlockAt_none_head (Or.inl (h c (List.mem_cons_self c cs))),
      ih (fun x hx => h x (List.mem_cons_of_mem c hx))⟩

theorem allFail_cons {metric r ys : List Char} {c : Char}
    (hc : c ≠ 'b') (h2 : AllFail metric r ys) :
    AllFail metric r (c :: ys) :=
  @allFail_append metric r [c] ys
    (allFail_not_b (fun x hx => by
      rw [List.mem_singleton] at hx
      rw [hx]
      exact hc)) h2

theorem allFail_digits {metric r : List Char} {xs : List Char}
    (h : ∀ c ∈ xs, c.isDigit = true) : AllFail metric r xs :=
  allFail_not_b (fun c hc hb => by
    rw [hb] at hc
    exact absurd (h 'b' hc) (by decide))

theorem allFail_bytesWord (metric w : List Char) :
    AllFail metric w "bytes".data := by
  refine ⟨?_, ?_, ?_, ?_, ?_, trivial⟩
  · exact matchBlockAt_none_head (Or.inr (by
      intro c2 cs2 hh
      injection hh with h1 _
      rw [← h1]
      decide))
  · exact matchBlockAt_none_head (Or.inl (by decide))
  · exact matchBlockAt_none_head (Or.inl (by decide))
  · exact matchBlockAt_none_head (Or.inl (by decide))
  · exact matchBlockAt_none_head (Or.inl (by decide))

theorem allFail_reqsWord (metric w : List Char) :
    AllFail metric w "reqs".data :=
  allFail_not_b (by decide)

theorem allFail_dirWord (e : BlockEntry) (metric w : List Char) :
    AllFail metric w (dirWord e) := by
  cases hr : e.isRead
  · rw [show dirWord e = "wr".data from by simp [dirWord, hr]]
    exact allFail_not_b (by decide)
  · rw [show dirWord e = "rd".data from by simp [dirWord, hr]]
    exact allFail_not_b (by decide)

theorem allFail_metricWord (e : BlockEntry) (metric w : List Char) :
    AllFail metric w (metricOf e) := by
  cases hb : e.isBytes
  · rw [metricOf_false hb]
    exact allFail_reqsWord metric w
  · rw [metricOf_true hb]
    exact allFail_bytesWord metric w

theorem allFail_renderEntry (e : BlockEntry) (he : goodEntry e)
    {metric : List Char} (r : List Char)
    (hm : metric = "bytes".data ∨ metric = "reqs".data)
    (hne : metric ≠ metricOf e) :
    AllFail metric r (renderEntry e) := by
  have h0 : matchBlockAt metric (renderEntry e ++ r) = none := by
    rw [matchBlockAt_render e he metric r none
      (matchBlockTail_wrong ('=' :: (e.val ++ r)) hm hne)]
    rfl
  have hA1 : AllFail metric r e.val := allFail_digits he.2.2.2
  have hA2 : AllFail metric r ('=' :: e.val) :=
    allFail_cons (by decide) hA1
  have hA3 : AllFail metric r (metricOf e ++ ('=' :: e.val)) :=
    allFail_append (allFail_metricWord e metric _) hA2
  have hA4 : AllFail metric r ('.' :: (metricOf e ++ ('=' :: e.val))) :=
    allFail_cons (by decide) hA3
  have hA5 : AllFail metric r
      (dirWord e ++ ('.' :: (metricOf e ++ ('=' :: e.val)))) :=
    allFail_append (allFail_dirWord e metric _) hA4
  have hA6 : AllFail metric r
      ('.' :: (dirWord e ++ ('.' :: (metricOf e ++ ('=' :: e.val))))) :=
    allFail_cons (by decide) hA5
  have hA7 : AllFail metric r (e.idx ++
      ('.' :: (dirWord e ++ ('.' :: (metricOf e ++ ('=' :: e.val)))))) :=
    allFail_append (allFail_digits he.2.1) hA6
  have hA8 : AllFail metric r ("lock.".data ++ (e.idx ++
      ('.' :: (dirWord e ++ ('.' :: (metricOf e ++ ('=' :: e.val))))))) :=
    allFail_append (allFail_not_b (by decide)) hA7
  have hren : renderEntry e = 'b' :: ("lock.".data ++ (e.idx ++
      ('.' :: (dirWord e ++ ('.' :: (metricOf e ++ ('=' :: e.val))))))) := by
    simp [renderEntry, dirWord]
  rw [hren]
  refine ⟨?_, hA8⟩
  rw [show 'b' :: (("lock.".data ++ (e.idx ++
      ('.' :: (dirWord e ++ ('.' :: (metricOf e ++ ('=' :: e.val))))))) ++ r)
      = renderEntry e ++ r from by rw [hren]; rfl]
  exact h0

/-! ## Scanner reduction over rendered entries -/

theorem scanAux_nil (metric : List Char) (fuel : Nat) :
    scanBlockAux metric fuel [] = [] := by
  cases fuel <;> rfl

theorem scanAux_step_some {metric cs : List Char} {b : Bool} {v k : Nat}
    {fuel : Nat} (hcs : cs ≠ [])
    (h : matchBlockAt metric cs = some (b, v, k)) :
    scanBlockAux metric (fuel + 1) cs
      = (b, v) :: scanBlockAux metric fuel (cs.drop k) := by
  obtain ⟨c, cs2, rfl⟩ := List.exists_cons_of_ne_nil hcs
  simp only [scanBlockAux, h]

theorem scanAux_step_none {metric : List Char} {c : Char} {cs : List Char}
    {fuel : Nat} (h : matchBlockAt metric (c :: cs) = none) :
    scanBlockAux metric (fuel + 1) (c :: cs) = scanBlockAux metric fuel cs := by
  simp only [scanBlockAux, h]

theorem scanAux_skip {metric r : List Char} : ∀ (l : List Char) (fuel : Nat),
    AllFail metric r l →
    scanBlockAux metric (l.length + fuel) (l ++ r)
      = scanBlockAux metric fuel r := by
  intro l
  induction l with
  | nil => intro fuel _; simp
  | cons c cs ih =>
    intro fuel hAF
    show scanBlockAux metric ((c :: cs).length + fuel) (c :: (cs ++ r)) = _
    rw [show (c :: cs).length + fuel = (cs.length + fuel) + 1 from by
      simp [List.length_cons]; omega]
    rw [scanAux_step_none hAF.1]
    exact ih fuel hAF.2

theorem renderEntry_length (e : BlockEntry) (metric : List Char)
    (hmm : metricOf e = metric) :
    (renderEntry e).length
      = 6 + e.idx.length + 3 + 1 + metric.length + 1 + e.val.length := by
  rw [← hmm]
  have hdir : (if e.isRead then "rd".data else "wr".data).length = 2 := by
    cases e.isRead <;> rfl
  simp [renderEntry, hdir]
  omega

theorem renderEntry_ne_nil (e : BlockEntry) : renderEntry e ≠ [] := by
  simp [renderEntry]

theorem scanAux_renderAll : ∀ (es : List BlockEntry) (metric : List Char)
    (fuel : Nat),
    (metric = "bytes".data ∨ metric = "reqs".data) →
    (∀ e ∈ es, goodEntry e) →
    (renderAll es).length ≤ fuel →
    scanBlockAux metric fuel (renderAll es)
      = (es.filter (fun e => decide (metricOf e = metric))).map
          (fun e => (e.isRead, digitsToNat e.val)) := by
  intro es
  induction es with
  | nil => intro metric fuel _ _ _; exact scanAux_nil metric fuel
  | cons e es ih =>
    intro metric fuel hm hg hfuel
    have hge := hg e (List.mem_cons_self e es)
    have hE1 : 0 < (renderEntry e).length :=
      List.length_pos.mpr (renderEntry_ne_nil e)
    have hlen : (renderAll (e :: es)).length
        = (renderEntry e).length + (1 + (renderAll es).length) := by
      show (renderEntry e ++ '\n' :: renderAll es).length = _
      simp
      omega
    by_cases hmm : metricOf e = metric
    · have hk : matchBlockAt metric (renderEntry e ++ ('\n' :: renderAll es))
          = some (e.isRead, digitsToNat e.val, (renderEntry e).length) := by
        have htail : matchBlockTail metric
            ('.' :: (metricOf e ++ ('=' :: (e.val ++ ('\n' :: renderAll es)))))
            = some (digitsToNat e.val, e.val.length) := by
          rw [hmm]
          exact matchBlockTail_correct hge.2.2.1 hge.2.2.2
            (by intro c hc; cases hc; decide)
        rw [matchBlockAt_render e hge metric ('\n' :: renderAll es) _ htail]
        simp [renderEntry_length e metric hmm]
      obtain ⟨f, rfl⟩ : ∃ f, fuel = f + 1 := by
        rcases fuel with - | f
        · exfalso; rw [hlen] at hfuel; omega
        · exact ⟨f, rfl⟩
      show scanBlockAux metric (f + 1) (renderEntry e ++ ('\n' :: renderAll es))
        = _
      rw [scanAux_step_some (by simp [renderEntry_ne_nil]) hk]
      rw [show (renderEntry e ++ ('\n' :: renderAll es)).drop
          (renderEntry e).length = '\n' :: renderAll es
          from List.drop_left _ _]
      obtain ⟨f2, rfl⟩ : ∃ f2, f = f2 + 1 := by
        rcases f with - | f2
        · exfalso; rw [hlen] at hfuel; omega
        · exact ⟨f2, rfl⟩
      rw [scanAux_step_none (matchBlockAt_none_head (Or.inl (by decide)))]
      rw [ih metric f2 hm (fun x hx => hg x (List.mem_cons_of_mem e hx))
        (by rw [hlen] at hfuel; omega)]
      rw [List.filter_cons, if_pos (by simp [hmm])]
      rfl
    · rw [hlen] at hfuel
      obtain ⟨f0, hf0, hf0le⟩ : ∃ f0, fuel = (renderEntry e).length + f0 ∧
          1 + (renderAll es).length ≤ f0 :=
        ⟨fuel - (renderEntry e).length, by omega, by omega⟩
      subst hf0
      show scanBlockAux metric ((renderEntry e).length + f0)
        (renderEntry e ++ ('\n' :: renderAll es)) = _
      rw [scanAux_skip (renderEntry e) f0
        (allFail_renderEntry e hge ('\n' :: renderAll es) hm
          (fun hh => hmm hh.symm))]
      obtain ⟨f2, rfl⟩ : ∃ f2, f0 = f2 + 1 := by
        rcases f0 with - | f2
        · exfalso; omega
        · exact ⟨f2, rfl⟩
      rw [scanAux_step_none (matchBlockAt_none_head (Or.inl (by decide)))]
      rw [ih metric f2 hm (fun x hx => hg x (List.mem_cons_of_mem e hx))
        (by omega)]
      rw [List.filter_cons, if_neg (by simp [hmm])]

/-! ## Summation over the matches -/

/-- The plain (unwrapped) sum of the values of one direction in a match
list. -/
def matchSum (dir : Bool) (ms : List (Bool × Nat)) : Nat :=
  ((ms.filter (fun p => p.1 == dir)).map Prod.snd).sum

theorem int_ofNat_cast (n : Nat) : Int.ofNat n = (n : Int) := rfl

theorem wrap64_ofNat {n : Nat} (h : n < 2 ^ 63) :
    wrap64 (Int.ofNat n) = Int.ofNat n := by
  unfold wrap64
  rw [int_ofNat_cast]
  omega

theorem sumMatches_eq (dir : Bool) : ∀ (ms : List (Bool × Nat)) (acc : Nat),
    (∀ p ∈ ms, p.2 ≤ 9223372036854775807) →
    acc + matchSum dir ms < 2 ^ 63 →
    sumMatches dir (Int.ofNat acc) ms = Int.ofNat (acc + matchSum dir ms) := by
  intro ms
  induction ms with
  | nil => intro acc _ _; simp [sumMatches, matchSum]
  | cons p ms ih =>
    obtain ⟨b, v⟩ := p
    intro acc hb hsum
    simp only [sumMatches]
    rw [if_pos (hb (b, v) (List.mem_cons_self _ _))]
    by_cases hd : b = dir
    · rw [if_pos hd]
      have hms : matchSum dir ((b, v) :: ms) = v + matchSum dir ms := by
        simp [matchSum, List.filter_cons, hd]
      rw [hms] at hsum
      rw [show Int.ofNat acc + Int.ofNat v = Int.ofNat (acc + v) from rfl]
      rw [wrap64_ofNat (by omega)]
      rw [ih (acc + v) (fun q hq => hb q (List.mem_cons_of_mem _ hq))
        (by omega)]
      rw [hms]
      congr 1
      omega
    · rw [if_neg hd]
      have hms : matchSum dir ((b, v) :: ms) = matchSum dir ms := by
        simp [matchSum, List.filter_cons, hd]
      rw [hms] at hsum
      rw [ih acc (fun q hq => hb q (List.mem_cons_of_mem _ hq)) hsum, hms]

/-- The sum of the values of the entries of one direction and metric
family: the combined total across all matched device indices. -/
def entrySum (dir bts : Bool) (es : List BlockEntry) : Nat :=
  ((es.filter (fun e => e.isRead == dir && e.isBytes == bts)).map
    (fun e => digitsToNat e.val)).sum

theorem matchSum_scan (dir bts : Bool) (metric : List Char)
    (hmb : ∀ e : BlockEntry, (metricOf e = metric) ↔ (e.isBytes = bts)) :
    ∀ es : List BlockEntry,
    matchSum dir ((es.filter (fun e => decide (metricOf e = metric))).map
      (fun e => (e.isRead, digitsToNat e.val))) = entrySum dir bts es := by
  intro es
  induction es with
  | nil => rfl
  | cons e es ih =>
    rw [List.filter_cons]
    by_cases hmet : metricOf e = metric
    · rw [if_pos (by simp [hmet])]
      have hbts : e.isBytes = bts := (hmb e).mp hmet
      rw [List.map_cons]
      by_cases hdir : e.isRead = dir
      · have : matchSum dir ((e.isRead, digitsToNat e.val) ::
            (es.filter (fun x => decide (metricOf x = metric))).map
              (fun x => (x.isRead, digitsToNat x.val)))
            = digitsToNat e.val + matchSum dir
              ((es.filter (fun x => decide (metricOf x = metric))).map
                (fun x => (x.isRead, digitsToNat x.val))) := by
          simp [matchSum, List.filter_cons, hdir]
        rw [this, ih]
        have : entrySum dir bts (e :: es)
            = digitsToNat e.val + entrySum dir bts es := by
          simp [entrySum, List.filter_cons, hdir, hbts]
        rw [this]
      · have : matchSum dir ((e.isRead, digitsToNat e.val) ::
            (es.filter (fun x => decide (metricOf x = metric))).map
              (fun x => (x.isRead, digitsToNat x.val)))
            = matchSum dir
              ((es.filter (fun x => decide (metricOf x = metric))).map
                (fun x => (x.isRead, digitsToNat x.val))) := by
          simp [matchSum, List.filter_cons, hdir]
        rw [this, ih]
        have : entrySum dir bts (e :: es) = entrySum dir bts es := by
          simp [entrySum, List.filter_cons, hdir]
        rw [this]
    · rw [if_neg (by simp [hmet])]
      rw [ih]
      have hbts : ¬ e.isBytes = bts := fun hb => hmet ((hmb e).mpr hb)
      have : entrySum dir bts (e :: es) = entrySum dir bts es := by
        simp [entrySum, List.filter_cons, hbts]
      rw [this]

theorem metricOf_bytes_iff (e : BlockEntry) :
    (metricOf e = "bytes".data) ↔ (e.isBytes = true) := by
  cases hb : e.isBytes
  · rw [metricOf_false hb]
    simp
  · rw [metricOf_true hb]
    simp

theorem metricOf_reqs_iff (e : BlockEntry) :
    (metricOf e = "reqs".data) ↔ (e.isBytes = false) := by
  cases hb : e.isBytes
  · rw [metricOf_false hb]
    simp
  · rw [metricOf_true hb]
    simp

theorem sumMatches_render (es : List BlockEntry) (dir bts : Bool)
    (metric : List Char)
    (hm : metric = "bytes".data ∨ metric = "reqs".data)
    (hmb : ∀ e : BlockEntry, (metricOf e = metric) ↔ (e.isBytes = bts))
    (hg : ∀ e ∈ es, goodEntry e)
    (hval : ∀ e ∈ es, digitsToNat e.val ≤ 9223372036854775807)
    (hsum : entrySum dir bts es < 2 ^ 63) :
    sumMatches dir 0 (scanBlockMatches metric (renderAll es))
      = Int.ofNat (entrySum dir bts es) := by
  unfold scanBlockMatches
  rw [scanAux_renderAll es metric (renderAll es).length hm hg (le_refl _)]
  have hms : matchSum dir
      ((es.filter (fun e => decide (metricOf e = metric))).map
        (fun e => (e.isRead, digitsToNat e.val)))
      = entrySum dir bts es := matchSum_scan dir bts metric hmb es
  have hbound : ∀ p ∈ (es.filter
      (fun e => decide (metricOf e = metric))).map
        (fun e => (e.isRead, digitsToNat e.val)),
      p.2 ≤ 9223372036854775807 := by
    intro p hp
    obtain ⟨e, he, rfl⟩ := List.mem_map.mp hp
    exact hval e (List.mem_of_mem_filter he)
  have h1 := sumMatches_eq dir
      ((es.filter (fun e => decide (metricOf e = metric))).map
        (fun e => (e.isRead, digitsToNat e.val))) 0 hbound
      (by rw [hms]; omega)
  rw [hms, Nat.zero_add] at h1
  exact h1

/-- Claim C6: parseBlockStats sums the per device statistics across all
matched device indices: on the rendered text of any list of well formed
block entries whose individual values fit in int64 and whose four
direction and family totals stay below 2 to the 63, the parsed read and
write byte totals and read and write request totals each equal the plain
sum over all entries of that direction and family. -/
theorem parseBlockStats_sums (es : List BlockEntry)
    (hg : ∀ e ∈ es, goodEntry e)
    (hval : ∀ e ∈ es, digitsToNat e.val ≤ 9223372036854775807)
    (hrb : entrySum true true es < 2 ^ 63)
    (hwb : entrySum false true es < 2 ^ 63)
    (hrr : entrySum true false es < 2 ^ 63)
    (hwr : entrySum false false es < 2 ^ 63) :
    parseBlockStats (renderAll es)
      = { readBytes := Int.ofNat (entrySum true true es)
          writeBytes := Int.ofNat (entrySum false true es)
          readReqs := Int.ofNat (entrySum true false es)
          writeReqs := Int.ofNat (entrySum false false es) } := by
  unfold parseBlockStats
  rw [sumMatches_render es true true _ (Or.inl rfl) metricOf_bytes_iff
      hg hval hrb,
    sumMatches_render es false true _ (Or.inl rfl) metricOf_bytes_iff
      hg hval hwb,
    sumMatches_render es true false _ (Or.inr rfl) metricOf_reqs_iff
      hg hval hrr,
    sumMatches_render es false false _ (Or.inr rfl) metricOf_reqs_iff
      hg hval hwr]

/-- The two entry scenario of the claim: two read byte entries for
device indices 0 and 1 with values 100 and 200. -/
def testEntries : List BlockEntry :=
  [{ idx := "0".data, isRead := true, isBytes := true, val := "100".data },
   { idx := "1".data, isRead := true, isBytes := true, val := "200".data }]

theorem parseBlockStats_sums_witness :
    (∀ e ∈ testEntries, goodEntry e) ∧
    parseBlockStats (renderAll testEntries)
      = { readBytes := 300, writeBytes := 0, readReqs := 0,
          writeReqs := 0 } := by
  refine ⟨by decide, ?_⟩
  rw [parseBlockStats_sums testEntries (by decide) (by decide) (by decide)
    (by decide) (by decide) (by decide)]
  decide

end QnapVM
